import Mathlib

/-!
Verification of the DAU/DRU/new-users aggregation pipeline
(`scripts/develop/dau_dru_dnu.py`).

The embedding models:
- day records (`date` plus a list of opaque subaccount identifiers, possibly
  with duplicates, as parsed from a shard file);
- the streaming shard parser's observable behaviour: a shard yields a prefix
  of its records and may then raise `IncompleteJSONError` (modelled by
  `truncatedAt`), and an individual yielded record may be missing a required
  field, in which case accessing it raises an uncaught `KeyError`;
- the aggregator loop `count_dau_returning_new_users_across_files`, which
  threads a global seen-set across all shards, catches only
  `IncompleteJSONError` per shard, and lets any other exception propagate;
- the shard enumerator of `main` (filter `.json`, sort by the `(year, month)`
  key extracted positionally from the filename);
- the `__main__` driver, which runs the categories sequentially with no
  exception handling.
-/

/-- A per-day activity record as parsed from a shard: the `date` string and
the list of identifiers (`subaccountIds`), duplicates possible in the raw
data. -/
structure DayRecord (α : Type) where
  date : String
  subaccountIds : List α
deriving DecidableEq, Repr

/-- One output entry of the aggregator (the dict appended to `result`). -/
structure DailyMetrics where
  date : String
  dau : Nat
  returningAddresses : Nat
  newUsers : Nat
deriving DecidableEq, Repr

/-- An item yielded by the streaming parser: either a well-formed record, or
an object missing a required field (`date` or `subaccountIds`), whose access
raises `KeyError`. -/
inductive RawItem (α : Type) where
  | ok (rec : DayRecord α)
  | missingField
deriving DecidableEq, Repr

/-- A shard file as seen by the streaming parser: its full sequence of
records, and optionally a truncation point `some k`, meaning the byte stream
ends unexpectedly after yielding the first `k` items (the parser then raises
`IncompleteJSONError`; the remaining records are never yielded). `none`
means the shard parses to the end. -/
structure Shard (α : Type) where
  records : List (RawItem α)
  truncatedAt : Option Nat
deriving DecidableEq, Repr

/-- Python exceptions that can escape the pipeline. -/
inductive RunError where
  /-- `KeyError`: a yielded record is missing `date` or `subaccountIds`. -/
  | keyError
  /-- `FileNotFoundError` from `os.listdir` on a missing input directory. -/
  | enumerationError
  /-- `ValueError`/`IndexError` extracting the sort key from a filename. -/
  | namingError
  /-- An error writing the output file. -/
  | writeError
deriving DecidableEq, Repr

/-- The items a shard actually yields before the stream ends or truncates. -/
def yieldedItems {α : Type} (s : Shard α) : List (RawItem α) :=
  match s.truncatedAt with
  | none => s.records
  | some k => s.records.take k

/-- The body of the aggregation loop, for one well-formed day record:
`current = set(day_data['subaccountIds'])`, `dau = len(current)`,
`returning_addresses = current ∩ seen`, `new_users = dau - len(returning)`,
`seen := seen ∪ current`, and the appended metrics dict. -/
def classifyDay {α : Type} [DecidableEq α] (seen : Finset α) (rec : DayRecord α) :
    DailyMetrics × Finset α :=
  let current := rec.subaccountIds.toFinset
  let dau := current.card
  let returning_addresses := current ∩ seen
  let new_users := dau - returning_addresses.card
  (⟨rec.date, dau, returning_addresses.card, new_users⟩, seen ∪ current)

/-- The aggregator's inner loop over the items one shard yields. A
well-formed item is classified and appended; an item missing a required
field raises `KeyError`, which the caller does not catch. -/
def processItems {α : Type} [DecidableEq α] (seen : Finset α)
    (acc : List DailyMetrics) :
    List (RawItem α) → Except RunError (List DailyMetrics × Finset α)
  | [] => .ok (acc, seen)
  | .missingField :: _ => .error .keyError
  | .ok rec :: rest =>
      let step := classifyDay seen rec
      processItems step.2 (acc ++ [step.1]) rest

/-- One iteration of the outer per-file loop: stream the shard's yielded
items. `IncompleteJSONError` (truncation) is caught by the
`except IncompleteJSONError: continue` handler, so a truncated shard simply
contributes the records yielded before the failure point; a `KeyError`
propagates. -/
def processShard {α : Type} [DecidableEq α] (seen : Finset α)
    (acc : List DailyMetrics) (s : Shard α) :
    Except RunError (List DailyMetrics × Finset α) :=
  processItems seen acc (yieldedItems s)

/-- The outer loop of `count_dau_returning_new_users_across_files` over the
ordered shard files, threading `seen_subaccounts` and `result`. -/
def processFilesGo {α : Type} [DecidableEq α] (seen : Finset α)
    (acc : List DailyMetrics) :
    List (Shard α) → Except RunError (List DailyMetrics × Finset α)
  | [] => .ok (acc, seen)
  | s :: rest =>
      match processShard seen acc s with
      | .error e => .error e
      | .ok st => processFilesGo st.2 st.1 rest

/-- `count_dau_returning_new_users_across_files`: starts with
`seen_subaccounts = set()` and `result = []`, processes every shard in
order, and returns `result`. -/
def count_dau_returning_new_users_across_files {α : Type} [DecidableEq α]
    (shards : List (Shard α)) : Except RunError (List DailyMetrics) :=
  (processFilesGo ∅ [] shards).map Prod.fst

/-- The spec's `classify` algorithm, written from the spec's words
(§4.3 steps 1-6): `current = dayRecord.activeIdentifiers` as a set,
`dau = |current|`, `returningSet = current ∩ GlobalSeenSet`,
`returning = |returningSet|`, `newUsers = dau - returning`, then
`GlobalSeenSet = GlobalSeenSet ∪ current`, returning
`{date, dau, returning, newUsers}`. Kept separate from `classifyDay` so the
code can be compared against it. -/
def classifySpecAlg {α : Type} [DecidableEq α] (seen : Finset α)
    (rec : DayRecord α) : DailyMetrics × Finset α :=
  let current := rec.subaccountIds.toFinset
  let dau := current.card
  let returningSet := current ∩ seen
  let returning := returningSet.card
  let newUsers := dau - returning
  (⟨rec.date, dau, returning, newUsers⟩, seen ∪ current)

/-- Sequential classification of a list of well-formed records from a given
seen-set: the reference aggregation the successful runs of the code reduce
to. -/
def classifyAll {α : Type} [DecidableEq α] (seen : Finset α) :
    List (DayRecord α) → List DailyMetrics × Finset α
  | [] => ([], seen)
  | r :: rs =>
      let step := classifyDay seen r
      let tail := classifyAll step.2 rs
      (step.1 :: tail.1, tail.2)

/-- The well-formed records among a list of raw items. -/
def okRecords {α : Type} (items : List (RawItem α)) : List (DayRecord α) :=
  items.filterMap fun it =>
    match it with
    | .ok r => some r
    | .missingField => none

/-- The well-formed records a shard actually yields. -/
def yieldedRecords {α : Type} (s : Shard α) : List (DayRecord α) :=
  okRecords (yieldedItems s)

/-- The union of the identifier sets of a list of day records. -/
def idsUnion {α : Type} [DecidableEq α] (recs : List (DayRecord α)) : Finset α :=
  recs.foldr (fun r s => r.subaccountIds.toFinset ∪ s) ∅

/-- Python's `str.split(sep)` for a one-character separator, on the
character list of the string. -/
def splitOnChar (sep : Char) : List Char → List (List Char)
  | [] => [[]]
  | c :: rest =>
      if c = sep then [] :: splitOnChar sep rest
      else
        match splitOnChar sep rest with
        | [] => [[c]]
        | h :: t => (c :: h) :: t

/-- The value of a list of decimal digit characters, most significant
first. -/
def digitsVal (acc : Nat) : List Char → Option Nat
  | [] => some acc
  | c :: rest =>
      if c.isDigit then digitsVal (acc * 10 + (c.toNat - 48)) rest
      else none

/-- Python's `int(s)` on an optional minus sign followed by decimal digits;
`none` models the `ValueError` on anything else. -/
def parseInt : List Char → Option Int
  | [] => none
  | '-' :: rest =>
      match rest with
      | [] => none
      | _ => (digitsVal 0 rest).map fun n => -(n : Int)
  | cs => (digitsVal 0 cs).map fun n => (n : Int)

/-- The `(year, month)` sort key of `main`, extracted positionally from a
filename: `(int(x.split('_')[-2]), int(x.split('_')[-1].split('.')[0]))`.
`none` models the uncaught `IndexError`/`ValueError` when the filename does
not follow the naming convention. -/
def shardKey (x : String) : Option (Int × Int) :=
  let parts := splitOnChar '_' x.data
  if parts.length < 2 then none
  else
    let yearStr := parts.getD (parts.length - 2) []
    let lastPart := parts.getD (parts.length - 1) []
    let monthStr := (splitOnChar '.' lastPart).getD 0 []
    match parseInt yearStr, parseInt monthStr with
    | some y, some m => some (y, m)
    | _, _ => none

/-- The key a filename sorts by, with a junk default for non-conforming
names (the enumerator never sorts those: it raises instead). -/
def shardKeyD (x : String) : Int × Int := (shardKey x).getD (0, 0)

/-- Python's ascending tuple comparison on `(year, month)` keys:
lexicographic order. -/
def keyLE (a b : Int × Int) : Bool :=
  decide (a.1 < b.1) || (decide (a.1 = b.1) && decide (a.2 ≤ b.2))

/-- Filenames ordered by their `(year, month)` sort keys. -/
def fileKeyLE (a b : String) : Prop :=
  keyLE (shardKeyD a) (shardKeyD b) = true

instance : DecidableRel fileKeyLE :=
  fun a b => inferInstanceAs (Decidable (keyLE (shardKeyD a) (shardKeyD b) = true))

instance : IsTotal String fileKeyLE where
  total a b := by
    simp only [fileKeyLE, keyLE, Bool.or_eq_true, Bool.and_eq_true,
      decide_eq_true_eq]
    omega

instance : IsTrans String fileKeyLE where
  trans a b c hab hbc := by
    simp only [fileKeyLE, keyLE, Bool.or_eq_true, Bool.and_eq_true,
      decide_eq_true_eq] at hab hbc ⊢
    omega

/-- The shard enumerator of `main`: keep the `.json` files of the directory
listing and sort them ascending (stably) by the `(year, month)` key; a
filename whose key cannot be extracted makes the sort raise (fatal for the
run). -/
def enumerateShards (entries : List String) : Except RunError (List String) :=
  if (entries.filter fun f => ".json".data.isSuffixOf f.data).all
      (fun f => (shardKey f).isSome) then
    .ok (List.insertionSort fileKeyLE
      (entries.filter fun f => ".json".data.isSuffixOf f.data))
  else .error .namingError

/-- `main(market_type, output_filename)` for one category: list the input
directory (raising `FileNotFoundError` if it is missing), enumerate and sort
the shard files, aggregate, then write the output (an I/O failure while
writing propagates). `listing` is the directory contents, `none` when the
directory does not exist; `content` maps a filename to the shard it parses
to; `writeFails` models an output-write failure. -/
def mainRun (listing : Option (List String)) (content : String → Shard String)
    (writeFails : Bool) : Except RunError (List DailyMetrics) :=
  match listing with
  | none => .error .enumerationError
  | some files =>
      match enumerateShards files with
      | .error e => .error e
      | .ok ordered =>
          match count_dau_returning_new_users_across_files (ordered.map content) with
          | .error e => .error e
          | .ok ms => if writeFails then .error .writeError else .ok ms

/-- Sequential execution of `main` over the categories, as in the
`if __name__ == "__main__":` block: each call runs in order and an uncaught
exception stops the program. Returns the list of categories actually
attempted and the exception that escaped, if any. -/
def runCategories (runCat : String → Except RunError (List DailyMetrics)) :
    List String → List String × Option RunError
  | [] => ([], none)
  | c :: rest =>
      match runCat c with
      | .error e => ([c], some e)
      | .ok _ =>
          let tail := runCategories runCat rest
          (c :: tail.1, tail.2)

/-- The script's `__main__` block: `main('spot', …)` then
`main('derivative', …)`, with no exception handling around either call. -/
def scriptRun (runCat : String → Except RunError (List DailyMetrics)) :
    List String × Option RunError :=
  runCategories runCat ["spot", "derivative"]

/-- Sequential aggregation over a list of day records using the spec's
`classify` algorithm, threading the GlobalSeenSet accumulated by step 5 of
every prior invocation. -/
def specAggregate {α : Type} [DecidableEq α] (seen : Finset α) :
    List (DayRecord α) → List DailyMetrics × Finset α
  | [] => ([], seen)
  | r :: rs =>
      let step := classifySpecAlg seen r
      let tail := specAggregate step.2 rs
      (step.1 :: tail.1, tail.2)

/-! ### Helper lemmas -/

theorem processItems_map_ok {α : Type} [DecidableEq α] (recs : List (DayRecord α)) :
    ∀ (seen : Finset α) (acc : List DailyMetrics),
      processItems seen acc (recs.map RawItem.ok)
        = .ok (acc ++ (classifyAll seen recs).1, (classifyAll seen recs).2) := by
  induction recs with
  | nil => intro seen acc; simp [processItems, classifyAll]
  | cons r rs ih =>
      intro seen acc
      simp only [List.map_cons, processItems, classifyAll, ih, List.append_assoc,
        List.singleton_append]

theorem okRecords_map_ok {α : Type} (items : List (RawItem α))
    (h : RawItem.missingField ∉ items) :
    (okRecords items).map RawItem.ok = items := by
  induction items with
  | nil => simp [okRecords]
  | cons it rest ih =>
      cases it with
      | ok r =>
          simp only [List.mem_cons, not_or] at h
          have hr : okRecords (RawItem.ok r :: rest) = r :: okRecords rest := rfl
          rw [hr, List.map_cons, ih h.2]
      | missingField => simp at h

theorem processItems_error_of_missing {α : Type} [DecidableEq α]
    (items : List (RawItem α)) (hmem : RawItem.missingField ∈ items) :
    ∀ (seen : Finset α) (acc : List DailyMetrics),
      processItems seen acc items = .error .keyError := by
  induction items with
  | nil => simp at hmem
  | cons it rest ih =>
      intro seen acc
      cases it with
      | ok r =>
          simp only [List.mem_cons, reduceCtorEq, false_or] at hmem
          simp only [processItems]
          exact ih hmem _ _
      | missingField => simp [processItems]

theorem processItems_ok_inv {α : Type} [DecidableEq α]
    (items : List (RawItem α)) (seen : Finset α) (acc : List DailyMetrics)
    (out : List DailyMetrics × Finset α)
    (h : processItems seen acc items = .ok out) :
    out = (acc ++ (classifyAll seen (okRecords items)).1,
           (classifyAll seen (okRecords items)).2) := by
  have hnm : RawItem.missingField ∉ items := by
    intro hmem
    rw [processItems_error_of_missing items hmem seen acc] at h
    exact Except.noConfusion h
  rw [← okRecords_map_ok items hnm, processItems_map_ok] at h
  exact (Except.ok.inj h).symm

theorem classifyAll_append {α : Type} [DecidableEq α] (xs : List (DayRecord α)) :
    ∀ (ys : List (DayRecord α)) (seen : Finset α),
      classifyAll seen (xs ++ ys)
        = ((classifyAll seen xs).1 ++ (classifyAll (classifyAll seen xs).2 ys).1,
           (classifyAll (classifyAll seen xs).2 ys).2) := by
  induction xs with
  | nil => intro ys seen; simp [classifyAll]
  | cons r rs ih => intro ys seen; simp [classifyAll, ih]

theorem processFilesGo_ok_inv {α : Type} [DecidableEq α]
    (shards : List (Shard α)) :
    ∀ (seen : Finset α) (acc : List DailyMetrics)
      (out : List DailyMetrics × Finset α),
      processFilesGo seen acc shards = .ok out →
      out = (acc ++ (classifyAll seen (shards.flatMap yieldedRecords)).1,
             (classifyAll seen (shards.flatMap yieldedRecords)).2) := by
  induction shards with
  | nil =>
      intro seen acc out h
      simp only [processFilesGo] at h
      simp [List.flatMap, classifyAll, ← Except.ok.inj h]
  | cons s rest ih =>
      intro seen acc out h
      simp only [processFilesGo, processShard] at h
      cases hs : processItems seen acc (yieldedItems s) with
      | error e => rw [hs] at h; exact Except.noConfusion h
      | ok st =>
          rw [hs] at h
          have hst := processItems_ok_inv _ _ _ _ hs
          have hout := ih st.2 st.1 out h
          rw [hout, hst]
          simp only [List.flatMap_cons, classifyAll_append, yieldedRecords,
            List.append_assoc]

theorem classifyAll_snd_eq {α : Type} [DecidableEq α]
    (recs : List (DayRecord α)) :
    ∀ (seen : Finset α), (classifyAll seen recs).2 = seen ∪ idsUnion recs := by
  induction recs with
  | nil => intro seen; simp [classifyAll, idsUnion]
  | cons r rs ih =>
      intro seen
      simp only [classifyAll, idsUnion, List.foldr_cons, ih, classifyDay]
      rw [Finset.union_assoc]

theorem classifyAll_fst_length {α : Type} [DecidableEq α]
    (recs : List (DayRecord α)) :
    ∀ (seen : Finset α), (classifyAll seen recs).1.length = recs.length := by
  induction recs with
  | nil => intro seen; simp [classifyAll]
  | cons r rs ih => intro seen; simp [classifyAll, ih]

theorem classifyDay_invariants {α : Type} [DecidableEq α]
    (seen : Finset α) (rec : DayRecord α) :
    (classifyDay seen rec).1.dau
        = (classifyDay seen rec).1.returningAddresses
          + (classifyDay seen rec).1.newUsers
      ∧ (classifyDay seen rec).1.returningAddresses ≤ (classifyDay seen rec).1.dau
      ∧ (classifyDay seen rec).1.returningAddresses ≤ seen.card := by
  have hle : (rec.subaccountIds.toFinset ∩ seen).card
      ≤ rec.subaccountIds.toFinset.card :=
    Finset.card_le_card Finset.inter_subset_left
  have hseen : (rec.subaccountIds.toFinset ∩ seen).card ≤ seen.card :=
    Finset.card_le_card Finset.inter_subset_right
  refine ⟨?_, hle, hseen⟩
  simp only [classifyDay]
  omega

theorem classifyAll_entry_invariants {α : Type} [DecidableEq α]
    (recs : List (DayRecord α)) :
    ∀ (seen : Finset α), ∀ m ∈ (classifyAll seen recs).1,
      m.dau = m.returningAddresses + m.newUsers
        ∧ m.returningAddresses ≤ m.dau := by
  induction recs with
  | nil => intro seen m hm; simp [classifyAll] at hm
  | cons r rs ih =>
      intro seen m hm
      simp only [classifyAll, List.mem_cons] at hm
      rcases hm with hm | hm
      · subst hm
        exact ⟨(classifyDay_invariants seen r).1, (classifyDay_invariants seen r).2.1⟩
      · exact ih _ m hm

theorem specAggregate_eq_classifyAll {α : Type} [DecidableEq α]
    (recs : List (DayRecord α)) :
    ∀ (seen : Finset α), specAggregate seen recs = classifyAll seen recs := by
  induction recs with
  | nil => intro seen; rfl
  | cons r rs ih =>
      intro seen
      have hcs : classifySpecAlg seen r = classifyDay seen r := rfl
      simp only [specAggregate, classifyAll, ih, hcs]

theorem processItems_ok_of_no_missing {α : Type} [DecidableEq α]
    (items : List (RawItem α)) (seen : Finset α) (acc : List DailyMetrics)
    (h : RawItem.missingField ∉ items) :
    processItems seen acc items
      = .ok (acc ++ (classifyAll seen (okRecords items)).1,
             (classifyAll seen (okRecords items)).2) := by
  conv_lhs => rw [← okRecords_map_ok items h]
  exact processItems_map_ok _ _ _

theorem processFilesGo_error_of_missing {α : Type} [DecidableEq α]
    (shards : List (Shard α))
    (h : ∃ s ∈ shards, RawItem.missingField ∈ yieldedItems s) :
    ∀ (seen : Finset α) (acc : List DailyMetrics),
      processFilesGo seen acc shards = .error .keyError := by
  induction shards with
  | nil => obtain ⟨s, hs, _⟩ := h; simp at hs
  | cons s rest ih =>
      intro seen acc
      by_cases hms : RawItem.missingField ∈ yieldedItems s
      · simp only [processFilesGo, processShard,
          processItems_error_of_missing _ hms seen acc]
      · obtain ⟨t, ht, hmem⟩ := h
        rcases List.mem_cons.mp ht with rfl | ht'
        · exact absurd hmem hms
        · simp only [processFilesGo, processShard,
            processItems_ok_of_no_missing _ seen acc hms]
          exact ih ⟨t, ht', hmem⟩ _ _

/-! ### Claim theorems -/

/-- Claim C1: every day record is classified exactly by the spec's
algorithm — `classifyDay` (the loop body of
`count_dau_returning_new_users_across_files`) coincides with the spec's
`classify` on every state, and a successful run returns precisely the
metrics of the spec's aggregation, driven with the seen-set accumulated from
all prior records starting from the empty set. -/
theorem classify_matches_spec_algorithm (seen : Finset String)
    (rec : DayRecord String) (shards : List (Shard String))
    (ms : List DailyMetrics)
    (h : count_dau_returning_new_users_across_files shards = .ok ms) :
    classifyDay seen rec = classifySpecAlg seen rec
      ∧ ms = (specAggregate ∅ (shards.flatMap yieldedRecords)).1 := by
  refine ⟨rfl, ?_⟩
  unfold count_dau_returning_new_users_across_files at h
  cases hgo : processFilesGo (∅ : Finset String) [] shards with
  | error e => rw [hgo] at h; exact Except.noConfusion h
  | ok out =>
      rw [hgo] at h
      have := processFilesGo_ok_inv shards ∅ [] out hgo
      simp only [Except.map] at h
      rw [← Except.ok.inj h, this, specAggregate_eq_classifyAll]
      simp

/-- Claim C1 witness. -/
theorem classify_matches_spec_algorithm_witness :
    classifyDay (∅ : Finset String) ⟨"2024-01-01", ["A"]⟩
        = classifySpecAlg ∅ ⟨"2024-01-01", ["A"]⟩
      ∧ ([⟨"2024-01-01", 1, 0, 1⟩] : List DailyMetrics)
        = (specAggregate ∅
            (([⟨[.ok ⟨"2024-01-01", ["A"]⟩], none⟩] :
                List (Shard String)).flatMap yieldedRecords)).1 :=
  classify_matches_spec_algorithm ∅ ⟨"2024-01-01", ["A"]⟩
    [⟨[.ok ⟨"2024-01-01", ["A"]⟩], none⟩] [⟨"2024-01-01", 1, 0, 1⟩] rfl

/-- Claim C2: every metrics entry a run produces satisfies
`dau = returning + newUsers` and `returning ≤ dau`; and a day classified
from any seen-set also satisfies `returning ≤ |seen|`, the cardinality of
the GlobalSeenSet as it stood before that day. -/
theorem daily_metrics_invariants (seen : Finset String)
    (rec : DayRecord String) (shards : List (Shard String))
    (out : List DailyMetrics × Finset String)
    (h : processFilesGo ∅ [] shards = .ok out) :
    ((classifyDay seen rec).1.dau
        = (classifyDay seen rec).1.returningAddresses
          + (classifyDay seen rec).1.newUsers
      ∧ (classifyDay seen rec).1.returningAddresses ≤ (classifyDay seen rec).1.dau
      ∧ (classifyDay seen rec).1.returningAddresses ≤ seen.card)
    ∧ ∀ m ∈ out.1,
        m.dau = m.returningAddresses + m.newUsers
          ∧ m.returningAddresses ≤ m.dau := by
  refine ⟨classifyDay_invariants seen rec, ?_⟩
  intro m hm
  have hout := processFilesGo_ok_inv shards ∅ [] out h
  rw [hout] at hm
  simp only [List.nil_append] at hm
  exact classifyAll_entry_invariants _ ∅ m hm

/-- Claim C2 witness. -/
theorem daily_metrics_invariants_witness :
    ((classifyDay (∅ : Finset String) ⟨"d", ["A"]⟩).1.dau
        = (classifyDay (∅ : Finset String) ⟨"d", ["A"]⟩).1.returningAddresses
          + (classifyDay (∅ : Finset String) ⟨"d", ["A"]⟩).1.newUsers
      ∧ (classifyDay (∅ : Finset String) ⟨"d", ["A"]⟩).1.returningAddresses
          ≤ (classifyDay (∅ : Finset String) ⟨"d", ["A"]⟩).1.dau
      ∧ (classifyDay (∅ : Finset String) ⟨"d", ["A"]⟩).1.returningAddresses
          ≤ (∅ : Finset String).card)
    ∧ ∀ m ∈ (([⟨"d", 1, 0, 1⟩], ({"A"} : Finset String)) :
          List DailyMetrics × Finset String).1,
        m.dau = m.returningAddresses + m.newUsers
          ∧ m.returningAddresses ≤ m.dau :=
  daily_metrics_invariants ∅ ⟨"d", ["A"]⟩
    [⟨[.ok ⟨"d", ["A"]⟩], none⟩] ([⟨"d", 1, 0, 1⟩], {"A"}) rfl

/-- Claim C5: the seen-set persists across the shard boundary — with
shard 1 holding only day `2024-01-15` with identifiers `{X, Y}` and shard 2
holding only day `2024-02-01` with identifiers `{Y, Z}`, the run yields for
`2024-02-01` the metrics `dau = 2`, `returning = 1`, `newUsers = 1`. -/
theorem cross_shard_continuity :
    count_dau_returning_new_users_across_files
      ([{ records := [.ok ⟨"2024-01-15", ["X", "Y"]⟩], truncatedAt := none },
        { records := [.ok ⟨"2024-02-01", ["Y", "Z"]⟩], truncatedAt := none }] :
        List (Shard String))
      = .ok [⟨"2024-01-15", 2, 0, 2⟩, ⟨"2024-02-01", 2, 1, 1⟩] := rfl

/-- Claim C8: the GlobalSeenSet only grows — one classification step maps
any seen-set to a superset, and over any successful run segment the final
seen-set contains the initial one, so its cardinality never decreases and
the set is never reset between shards. -/
theorem seen_set_monotone (seen : Finset String) (rec : DayRecord String)
    (seen0 : Finset String) (acc : List DailyMetrics)
    (shards : List (Shard String)) (out : List DailyMetrics × Finset String)
    (h : processFilesGo seen0 acc shards = .ok out) :
    seen ⊆ (classifyDay seen rec).2 ∧ seen0 ⊆ out.2 ∧ seen0.card ≤ out.2.card := by
  have hsub : seen0 ⊆ out.2 := by
    have hout := processFilesGo_ok_inv shards seen0 acc out h
    rw [hout]
    simp only [classifyAll_snd_eq]
    exact Finset.subset_union_left
  exact ⟨Finset.subset_union_left, hsub, Finset.card_le_card hsub⟩

/-- Claim C8 witness. -/
theorem seen_set_monotone_witness :
    (∅ : Finset String) ⊆ (classifyDay (∅ : Finset String) ⟨"d", ["A"]⟩).2
      ∧ ({"B"} : Finset String)
          ⊆ (([⟨"d", 1, 0, 1⟩], ({"B", "A"} : Finset String)) :
              List DailyMetrics × Finset String).2
      ∧ ({"B"} : Finset String).card
          ≤ (([⟨"d", 1, 0, 1⟩], ({"B", "A"} : Finset String)) :
              List DailyMetrics × Finset String).2.card :=
  seen_set_monotone ∅ ⟨"d", ["A"]⟩ {"B"} []
    [⟨[.ok ⟨"d", ["A"]⟩], none⟩] ([⟨"d", 1, 0, 1⟩], {"B", "A"}) rfl

/-- Claim C9: the first day record ever processed in a run (the
GlobalSeenSet still empty) yields `returning = 0` and `newUsers = dau`. -/
theorem first_day_metrics (shards : List (Shard String))
    (out : List DailyMetrics × Finset String) (m : DailyMetrics)
    (h : processFilesGo ∅ [] shards = .ok out)
    (hm : out.1.head? = some m) :
    m.returningAddresses = 0 ∧ m.newUsers = m.dau := by
  have hout := processFilesGo_ok_inv shards ∅ [] out h
  rw [hout] at hm
  simp only [List.nil_append] at hm
  cases hrecs : shards.flatMap yieldedRecords with
  | nil => rw [hrecs] at hm; simp [classifyAll] at hm
  | cons r rs =>
      rw [hrecs] at hm
      simp only [classifyAll, List.head?_cons, Option.some.injEq] at hm
      subst hm
      simp [classifyDay]

/-- Claim C9 witness. -/
theorem first_day_metrics_witness :
    (⟨"d", 1, 0, 1⟩ : DailyMetrics).returningAddresses = 0
      ∧ (⟨"d", 1, 0, 1⟩ : DailyMetrics).newUsers
        = (⟨"d", 1, 0, 1⟩ : DailyMetrics).dau :=
  first_day_metrics [⟨[.ok ⟨"d", ["A"]⟩], none⟩]
    ([⟨"d", 1, 0, 1⟩], {"A"}) ⟨"d", 1, 0, 1⟩ rfl rfl

/-- Claim C10: at the end of any successful run the GlobalSeenSet equals
exactly the union of the identifier sets of all day records classified,
starting from the empty set, and the result list holds exactly one metrics
entry per classified record, produced in lockstep by the classification
step. -/
theorem seen_set_is_union_of_processed (shards : List (Shard String))
    (out : List DailyMetrics × Finset String)
    (h : processFilesGo ∅ [] shards = .ok out) :
    out.2 = idsUnion (shards.flatMap yieldedRecords)
      ∧ out.1 = (classifyAll ∅ (shards.flatMap yieldedRecords)).1
      ∧ out.1.length = (shards.flatMap yieldedRecords).length := by
  have hout := processFilesGo_ok_inv shards ∅ [] out h
  rw [hout]
  refine ⟨?_, by simp, ?_⟩
  · rw [classifyAll_snd_eq]
    simp
  · simp [classifyAll_fst_length]

/-- Claim C10 witness. -/
theorem seen_set_is_union_of_processed_witness :
    (([⟨"d", 1, 0, 1⟩], ({"A"} : Finset String)) :
        List DailyMetrics × Finset String).2
        = idsUnion (([⟨[.ok ⟨"d", ["A"]⟩], none⟩] :
            List (Shard String)).flatMap yieldedRecords)
      ∧ (([⟨"d", 1, 0, 1⟩], ({"A"} : Finset String)) :
            List DailyMetrics × Finset String).1
        = (classifyAll ∅ (([⟨[.ok ⟨"d", ["A"]⟩], none⟩] :
            List (Shard String)).flatMap yieldedRecords)).1
      ∧ (([⟨"d", 1, 0, 1⟩], ({"A"} : Finset String)) :
            List DailyMetrics × Finset String).1.length
        = (([⟨[.ok ⟨"d", ["A"]⟩], none⟩] :
            List (Shard String)).flatMap yieldedRecords).length :=
  seen_set_is_union_of_processed [⟨[.ok ⟨"d", ["A"]⟩], none⟩]
    ([⟨"d", 1, 0, 1⟩], {"A"}) rfl

/-- Claim C3: a shard whose byte stream truncates after yielding `k`
well-formed records contributes exactly those records — they are appended to
the result and their identifiers joined into the seen-set — the remainder of
the shard (everything past the truncation point) is discarded, and the run
continues with the next shards instead of aborting. -/
theorem truncated_shard_recovery (seen : Finset String)
    (acc : List DailyMetrics) (s : Shard String)
    (rest : List (Shard String)) (k : Nat)
    (htr : s.truncatedAt = some k)
    (hok : RawItem.missingField ∉ yieldedItems s) :
    yieldedItems s = s.records.take k
      ∧ processFilesGo seen acc (s :: rest)
        = processFilesGo (classifyAll seen (yieldedRecords s)).2
            (acc ++ (classifyAll seen (yieldedRecords s)).1) rest := by
  refine ⟨by simp [yieldedItems, htr], ?_⟩
  simp only [processFilesGo, processShard,
    processItems_ok_of_no_missing _ seen acc hok, yieldedRecords]

/-- Claim C3 witness: a shard yielding three valid day records before
truncating still contributes those records, and the next shard is
processed. -/
theorem truncated_shard_recovery_witness :
    yieldedItems (⟨[.ok ⟨"d1", ["A"]⟩, .ok ⟨"d2", ["B"]⟩, .ok ⟨"d3", ["C"]⟩,
          .ok ⟨"d4", ["D"]⟩], some 3⟩ : Shard String)
        = [.ok ⟨"d1", ["A"]⟩, .ok ⟨"d2", ["B"]⟩, .ok ⟨"d3", ["C"]⟩,
           .ok ⟨"d4", ["D"]⟩].take 3
      ∧ processFilesGo (∅ : Finset String) []
          [⟨[.ok ⟨"d1", ["A"]⟩, .ok ⟨"d2", ["B"]⟩, .ok ⟨"d3", ["C"]⟩,
             .ok ⟨"d4", ["D"]⟩], some 3⟩, ⟨[.ok ⟨"d5", ["E"]⟩], none⟩]
        = processFilesGo
            (classifyAll ∅ (yieldedRecords
              (⟨[.ok ⟨"d1", ["A"]⟩, .ok ⟨"d2", ["B"]⟩, .ok ⟨"d3", ["C"]⟩,
                 .ok ⟨"d4", ["D"]⟩], some 3⟩ : Shard String))).2
            ([] ++ (classifyAll ∅ (yieldedRecords
              (⟨[.ok ⟨"d1", ["A"]⟩, .ok ⟨"d2", ["B"]⟩, .ok ⟨"d3", ["C"]⟩,
                 .ok ⟨"d4", ["D"]⟩], some 3⟩ : Shard String))).1)
            [⟨[.ok ⟨"d5", ["E"]⟩], none⟩] :=
  truncated_shard_recovery ∅ []
    ⟨[.ok ⟨"d1", ["A"]⟩, .ok ⟨"d2", ["B"]⟩, .ok ⟨"d3", ["C"]⟩,
      .ok ⟨"d4", ["D"]⟩], some 3⟩
    [⟨[.ok ⟨"d5", ["E"]⟩], none⟩] 3 rfl (by decide)

/-- Claim C4 counterexample: a shard whose second record is missing a
required field is NOT handled like truncation — the uncaught `KeyError`
aborts the whole run, so the already-consumed record `d1` is not kept and
the following shard is never processed. -/
theorem record_missing_field_cex :
    count_dau_returning_new_users_across_files
      ([⟨[.ok ⟨"d1", ["A"]⟩, .missingField], none⟩,
        ⟨[.ok ⟨"d2", ["B"]⟩], none⟩] : List (Shard String))
      = .error RunError.keyError := rfl

/-- Claim C4 (amended): a record missing a required field (`date` or
`subaccountIds`) raises a `KeyError` that no handler catches: the whole run
aborts with the error, the records already consumed are lost with it, and
the remaining shards are not processed. -/
theorem record_missing_field_aborts_run (shards : List (Shard String))
    (h : ∃ s ∈ shards, RawItem.missingField ∈ yieldedItems s) :
    count_dau_returning_new_users_across_files shards
      = .error RunError.keyError := by
  unfold count_dau_returning_new_users_across_files
  rw [processFilesGo_error_of_missing shards h ∅ []]
  rfl

/-- Claim C4 (amended) witness. -/
theorem record_missing_field_aborts_run_witness :
    count_dau_returning_new_users_across_files
      ([⟨[.missingField], none⟩] : List (Shard String))
      = .error RunError.keyError :=
  record_missing_field_aborts_run [⟨[.missingField], none⟩]
    ⟨⟨[.missingField], none⟩, by simp, by simp [yieldedItems]⟩

/-- Claim C6 counterexample: with the spot category's input directory
missing and the derivative category fine, the script aborts after the spot
failure — the derivative category is never attempted, contradicting the
claim that one category's failure does not abort the others. -/
theorem category_failure_stops_script_cex :
    scriptRun (fun c => mainRun (if c = "spot" then none else some [])
        (fun _ => ⟨[], none⟩) false)
      = (["spot"], some RunError.enumerationError)
    ∧ "derivative" ∉ (scriptRun (fun c =>
        mainRun (if c = "spot" then none else some [])
          (fun _ => ⟨[], none⟩) false)).1 := by
  exact ⟨rfl, by decide⟩

/-- Claim C6 (amended): the `__main__` block runs the categories
sequentially with no exception handling, so a failure while processing the
first category aborts the script: the remaining categories are not
attempted. -/
theorem category_failure_stops_script
    (runCat : String → Except RunError (List DailyMetrics)) (e : RunError)
    (h : runCat "spot" = .error e) :
    scriptRun runCat = (["spot"], some e)
      ∧ "derivative" ∉ (scriptRun runCat).1 := by
  have hrun : scriptRun runCat = (["spot"], some e) := by
    simp [scriptRun, runCategories, h]
  exact ⟨hrun, by rw [hrun]; simp⟩

/-- Claim C6 (amended) witness. -/
theorem category_failure_stops_script_witness :
    scriptRun (fun c => mainRun (if c = "spot" then none else some [])
        (fun _ => ⟨[], none⟩) false)
      = (["spot"], some RunError.enumerationError)
    ∧ "derivative" ∉ (scriptRun (fun c =>
        mainRun (if c = "spot" then none else some [])
          (fun _ => ⟨[], none⟩) false)).1 :=
  category_failure_stops_script
    (fun c => mainRun (if c = "spot" then none else some [])
      (fun _ => ⟨[], none⟩) false)
    RunError.enumerationError rfl

/-- Claim C7: when the enumerator succeeds, it returns exactly the `.json`
files of the directory listing (as a permutation of that filtered listing),
every returned filename has a well-defined positional `(year, month)` key,
and the output is ordered ascending by that key: for any two files in the
returned order, the earlier one's key is lexicographically at most the later
one's. -/
theorem enumerator_sorted (entries : List String) (out : List String)
    (h : enumerateShards entries = .ok out) :
    out.Perm (entries.filter fun f => ".json".data.isSuffixOf f.data)
      ∧ (∀ f ∈ out, (shardKey f).isSome = true)
      ∧ out.Pairwise (fun a b =>
          (shardKeyD a).1 < (shardKeyD b).1
            ∨ ((shardKeyD a).1 = (shardKeyD b).1
                ∧ (shardKeyD a).2 ≤ (shardKeyD b).2)) := by
  unfold enumerateShards at h
  split at h
  case isFalse => exact Except.noConfusion h
  case isTrue hall =>
      have hout := (Except.ok.inj h).symm
      subst hout
      refine ⟨List.perm_insertionSort _ _, ?_, ?_⟩
      · intro f hf
        have hf' := (List.perm_insertionSort fileKeyLE _).mem_iff.mp hf
        exact List.all_eq_true.mp hall f hf'
      · have hsorted := List.sorted_insertionSort fileKeyLE
          (entries.filter fun f => ".json".data.isSuffixOf f.data)
        refine hsorted.imp ?_
        intro a b hab
        simpa only [fileKeyLE, keyLE, Bool.or_eq_true, Bool.and_eq_true,
          decide_eq_true_eq] using hab

/-- Claim C7 witness. -/
theorem enumerator_sorted_witness :
    (["a_2023_12.json", "a_2024_2.json"] : List String).Perm
        ((["a_2024_2.json", "a_2023_12.json", "readme.txt"] :
            List String).filter fun f => ".json".data.isSuffixOf f.data)
      ∧ (∀ f ∈ (["a_2023_12.json", "a_2024_2.json"] : List String),
          (shardKey f).isSome = true)
      ∧ (["a_2023_12.json", "a_2024_2.json"] : List String).Pairwise
          (fun a b =>
            (shardKeyD a).1 < (shardKeyD b).1
              ∨ ((shardKeyD a).1 = (shardKeyD b).1
                  ∧ (shardKeyD a).2 ≤ (shardKeyD b).2)) :=
  enumerator_sorted ["a_2024_2.json", "a_2023_12.json", "readme.txt"]
    ["a_2023_12.json", "a_2024_2.json"] rfl
